import Mathlib

/-!
Verification of the Whisper topic core (topic.go): topic derivation from a
hash prefix and positional topic matching with wildcard and set-membership
semantics.

The embedding follows the source:
* `Topic` is the 4-byte array `[4]byte` (bytes as `Nat`).
* `NewTopic` takes the first 4 bytes of the external hash digest; the hash
  function (Keccak256 in the source) is an external collaborator and is a
  parameter here.
* `NewTopics` maps `NewTopic` over a list of byte payloads.
* `Topic.String` is the raw byte rendering `string(self[:])`; Go's
  conversion from a byte slice to a string preserves the bytes, so a Go
  string is modelled as the list of its bytes.
* `topicMatcher` holds one `Finset Topic` per position, the embedding of the
  per-position `map[Topic]struct{}` built by `newTopicMatcher`.
* `topicMatcher.Matches` is the positional matching loop.
-/

/-- A Whisper topic: a 4-byte value (`type Topic [4]byte`). -/
structure Topic where
  b0 : Nat
  b1 : Nat
  b2 : Nat
  b3 : Nat
deriving DecidableEq, Inhabited, Repr

/-- `NewTopic` creates a topic from the 4 byte head of the hash of the data
(`copy(p[:], crypto.Keccak256(data)[:4])` over a zero-initialised array).
The external hash function is a parameter; bytes are `Nat`. -/
def NewTopic (hash : List Nat → List Nat) (data : List Nat) : Topic :=
  ⟨(hash data).getD 0 0, (hash data).getD 1 0, (hash data).getD 2 0, (hash data).getD 3 0⟩

/-- `NewTopics` creates a list of topics from a list of binary data elements,
by iteratively calling `NewTopic` on each of them. -/
def NewTopics (hash : List Nat → List Nat) (data : List (List Nat)) : List Topic :=
  data.map (NewTopic hash)

/-- The 4 bytes of a topic, in order: the slice view `t[:]`. -/
def topicBytes (t : Topic) : List Nat := [t.b0, t.b1, t.b2, t.b3]

/-- `String` converts a topic byte array to a string representation
(`string(self[:])`); a Go string is its byte sequence. -/
def Topic.String (self : Topic) : List Nat := [self.b0, self.b1, self.b2, self.b3]

/-- The per-position set built by `newTopicMatcher`: each topic of the
condition list is inserted into an initially empty set. -/
def listSet (condition : List Topic) : Finset Topic :=
  condition.foldl (fun acc topic => insert topic acc) ∅

/-- A filter expression: one acceptance set (`map[Topic]struct{}`) per
position. -/
structure topicMatcher where
  conditions : List (Finset Topic)

/-- `newTopicMatcher` creates a topic matcher from a list of topic
conditions. -/
def newTopicMatcher (topics : List (List Topic)) : topicMatcher :=
  ⟨topics.map listSet⟩

/-- `Matches` checks if a list of topics matches this particular condition
set: mismatch if there are not enough topics, then each position is checked
for membership, skipping wild-cards (empty condition sets). -/
def topicMatcher.Matches (self : topicMatcher) (topics : List Topic) : Bool :=
  if self.conditions.length > topics.length then
    false
  else
    (List.range (min topics.length self.conditions.length)).all fun i =>
      if 0 < (self.conditions.getD i ∅).card then
        decide (topics.getD i default ∈ self.conditions.getD i ∅)
      else
        true

/-- Whether one condition set accepts a topic at its position: a wild-card
(empty set) accepts anything, otherwise membership decides. This is the
body of the loop of `Matches` at one position. -/
def condOK (c : Finset Topic) (t : Topic) : Bool :=
  if 0 < c.card then decide (t ∈ c) else true

/-- Swap the entries at positions `i` and `j` of a candidate topic list. -/
def swapAt (ts : List Topic) (i j : Nat) : List Topic :=
  (ts.set i (ts.getD j default)).set j (ts.getD i default)

/-- A sample concrete topic. -/
def TopicA : Topic := ⟨0, 0, 0, 1⟩

/-- A sample concrete topic distinct from `TopicA`. -/
def TopicB : Topic := ⟨0, 0, 0, 2⟩

/-- A sample concrete topic distinct from `TopicA` and `TopicB`. -/
def TopicC : Topic := ⟨0, 0, 0, 3⟩

theorem mem_foldl_insert (l : List Topic) (s : Finset Topic) (t : Topic) :
    t ∈ l.foldl (fun acc topic => insert topic acc) s ↔ t ∈ s ∨ t ∈ l := by
  induction l generalizing s with
  | nil => simp
  | cons x xs ih =>
      simp only [List.foldl_cons, ih, Finset.mem_insert, List.mem_cons]
      tauto

theorem mem_listSet (l : List Topic) (t : Topic) : t ∈ listSet l ↔ t ∈ l := by
  simp [listSet, mem_foldl_insert]

theorem listSet_eq_empty (l : List Topic) : listSet l = ∅ ↔ l = [] := by
  constructor
  · intro h
    cases l with
    | nil => rfl
    | cons x xs =>
        exfalso
        have hx : x ∈ listSet (x :: xs) := (mem_listSet _ _).mpr (List.mem_cons_self x xs)
        rw [h] at hx
        exact Finset.not_mem_empty x hx
  · intro h; subst h; rfl

theorem conditions_getD (css : List (List Topic)) (i : Nat) :
    (newTopicMatcher css).conditions.getD i ∅ = listSet (css.getD i []) := by
  simp only [newTopicMatcher, List.getD_eq_getElem?_getD, List.getElem?_map]
  cases css[i]? with
  | none => simp [listSet]
  | some c => simp

theorem conditions_length (css : List (List Topic)) :
    (newTopicMatcher css).conditions.length = css.length := by
  simp [newTopicMatcher]

theorem matches_iff (m : topicMatcher) (ts : List Topic) :
    m.Matches ts = true ↔ m.conditions.length ≤ ts.length ∧
      ∀ i < m.conditions.length,
        m.conditions.getD i ∅ = ∅ ∨ ts.getD i default ∈ m.conditions.getD i ∅ := by
  unfold topicMatcher.Matches
  by_cases hlen : m.conditions.length > ts.length
  · simp only [hlen, if_true]
    constructor
    · intro h; exact absurd h (by simp)
    · intro h; omega
  · simp only [hlen, if_false]
    push_neg at hlen
    have hmin : min ts.length m.conditions.length = m.conditions.length := by omega
    rw [List.all_eq_true]
    constructor
    · intro h
      refine ⟨hlen, fun i hi => ?_⟩
      have hthis := h i (by rw [List.mem_range, hmin]; exact hi)
      by_cases hc : 0 < (m.conditions.getD i ∅).card
      · rw [if_pos hc, decide_eq_true_eq] at hthis
        exact Or.inr hthis
      · left
        exact Finset.card_eq_zero.mp (by omega)
    · rintro ⟨-, h⟩ i hi
      rw [List.mem_range, hmin] at hi
      rcases h i hi with hempty | hmem
      · rw [hempty]
        simp
      · have hc : 0 < (m.conditions.getD i ∅).card := Finset.card_pos.mpr ⟨_, hmem⟩
        rw [if_pos hc, decide_eq_true_eq]
        exact hmem

theorem condOK_iff (c : Finset Topic) (t : Topic) :
    condOK c t = true ↔ c = ∅ ∨ t ∈ c := by
  unfold condOK
  by_cases hc : 0 < c.card
  · rw [if_pos hc, decide_eq_true_eq]
    constructor
    · exact Or.inr
    · rintro (rfl | h)
      · simp at hc
      · exact h
  · rw [if_neg hc]
    have hempty : c = ∅ := Finset.card_eq_zero.mp (by omega)
    simp [hempty]

theorem matches_iff_condOK (m : topicMatcher) (ts : List Topic) :
    m.Matches ts = true ↔ m.conditions.length ≤ ts.length ∧
      ∀ i < m.conditions.length,
        condOK (m.conditions.getD i ∅) (ts.getD i default) = true := by
  rw [matches_iff]
  refine and_congr_right fun _ => ?_
  exact forall_congr' fun i => imp_congr_right fun _ => (condOK_iff _ _).symm

theorem getD_append_left (l l2 : List Topic) (i : Nat) (d : Topic) (h : i < l.length) :
    (l ++ l2).getD i d = l.getD i d := by
  rw [List.getD_eq_getElem?_getD, List.getD_eq_getElem?_getD, List.getElem?_append_left h]

theorem getD_set_ne (l : List Topic) (i k : Nat) (a d : Topic) (h : i ≠ k) :
    (l.set i a).getD k d = l.getD k d := by
  rw [List.getD_eq_getElem?_getD, List.getD_eq_getElem?_getD, List.getElem?_set_ne h]

theorem getD_out (l : List Topic) (i : Nat) (d : Topic) (h : l.length ≤ i) :
    l.getD i d = d := by
  rw [List.getD_eq_getElem?_getD, List.getElem?_eq_none h]
  rfl

theorem getD_set_self (l : List Topic) (i : Nat) (a d : Topic) :
    (l.set i a).getD i d = if i < l.length then a else d := by
  by_cases h : i < l.length
  · rw [if_pos h, List.getD_eq_getElem?_getD, List.getElem?_set_eq_of_lt a h]
    rfl
  · rw [if_neg h]
    exact getD_out _ _ _ (by rw [List.length_set]; omega)

/-- Claim C1: a matcher compiled from `N` condition sets returns `false` on a
candidate list shorter than `N`; otherwise it matches exactly when every
position `i < N` is either a wild-card (its acceptance set was empty at
compile time) or has `candidate[i]` in its acceptance set. -/
theorem matches_characterization (css : List (List Topic)) (ts : List Topic) :
    ((newTopicMatcher css).Matches ts = true ↔
      css.length ≤ ts.length ∧
        ∀ i < css.length,
          (newTopicMatcher css).conditions.getD i ∅ = ∅ ∨
            ts.getD i default ∈ (newTopicMatcher css).conditions.getD i ∅) ∧
    (ts.length < css.length → (newTopicMatcher css).Matches ts = false) := by
  constructor
  · rw [matches_iff, conditions_length]
  · intro hshort
    rw [Bool.eq_false_iff]
    intro htrue
    have := ((matches_iff _ _).mp htrue).1
    rw [conditions_length] at this
    omega

/-- Claim C1 instance: the characterization applied to the empty matcher and
the empty candidate list. -/
theorem matches_characterization_witness :
    (newTopicMatcher ([] : List (List Topic))).Matches [] = true :=
  (matches_characterization [] []).1.mpr ⟨Nat.le_refl 0, fun i hi => absurd hi (by simp)⟩

/-- Claim C2: a matcher compiled from zero conditions matches every candidate
topic list, including the empty one; `Matches` is total by construction. -/
theorem matches_empty_matcher (ts : List Topic) :
    (newTopicMatcher []).Matches ts = true := by
  rw [matches_iff]
  refine ⟨?_, ?_⟩
  · rw [conditions_length]
    exact Nat.zero_le _
  · intro i hi
    rw [conditions_length] at hi
    exact absurd hi (by simp)

/-- Claim C2 instance: the empty matcher matches a concrete nonempty list. -/
theorem matches_empty_matcher_witness :
    (newTopicMatcher []).Matches [TopicA] = true :=
  matches_empty_matcher [TopicA]

/-- Claim C3: appending extra trailing topics to a candidate list that is at
least as long as the condition list never changes the result of `Matches`. -/
theorem matches_append_invariant (m : topicMatcher) (ts extra : List Topic)
    (h : m.conditions.length ≤ ts.length) :
    m.Matches (ts ++ extra) = m.Matches ts := by
  rw [Bool.eq_iff_iff, matches_iff, matches_iff]
  have hval : ∀ i < m.conditions.length,
      (ts ++ extra).getD i default = ts.getD i default := fun i hi =>
    getD_append_left _ _ _ _ (lt_of_lt_of_le hi h)
  constructor
  · rintro ⟨-, h2⟩
    refine ⟨h, fun i hi => ?_⟩
    rw [← hval i hi]
    exact h2 i hi
  · rintro ⟨-, h2⟩
    refine ⟨?_, fun i hi => ?_⟩
    · rw [List.length_append]
      omega
    · rw [hval i hi]
      exact h2 i hi

/-- Claim C3 instance: appending a trailing topic to an already-long-enough
candidate leaves the result unchanged. -/
theorem matches_append_invariant_witness :
    (newTopicMatcher [[TopicA]]).Matches ([TopicA] ++ [TopicB]) =
      (newTopicMatcher [[TopicA]]).Matches [TopicA] :=
  matches_append_invariant (newTopicMatcher [[TopicA]]) [TopicA] [TopicB] (by decide)

/-- Claim C4: an empty acceptance set compiles to a wildcard. A matcher with
a single empty condition matches any one-topic list, and more generally a
position whose acceptance set is empty never influences the result: the
candidate topic there can be replaced arbitrarily. -/
theorem wildcard_condition (m : topicMatcher) (ts : List Topic) (i : Nat) (x : Topic)
    (hw : m.conditions.getD i ∅ = ∅) :
    m.Matches (ts.set i x) = m.Matches ts ∧
      ∀ T : Topic, (newTopicMatcher [[]]).Matches [T] = true := by
  constructor
  · rw [Bool.eq_iff_iff, matches_iff, matches_iff, List.length_set]
    constructor
    · rintro ⟨h1, h2⟩
      refine ⟨h1, fun k hk => ?_⟩
      by_cases hki : k = i
      · subst hki; exact Or.inl hw
      · have hkk := h2 k hk
        rwa [getD_set_ne _ _ _ _ _ (fun h => hki h.symm)] at hkk
    · rintro ⟨h1, h2⟩
      refine ⟨h1, fun k hk => ?_⟩
      by_cases hki : k = i
      · subst hki; exact Or.inl hw
      · rw [getD_set_ne _ _ _ _ _ (fun h => hki h.symm)]
        exact h2 k hk
  · intro T
    rw [matches_iff, conditions_length]
    refine ⟨by simp, ?_⟩
    intro k hk
    simp only [List.length_cons, List.length_nil] at hk
    have hk0 : k = 0 := by omega
    subst hk0
    left
    rw [conditions_getD]
    rfl

/-- Claim C4 instance: replacing the candidate topic at a wildcard position
of a concrete matcher leaves the result unchanged. -/
theorem wildcard_condition_witness :
    (newTopicMatcher [[], [TopicA]]).Matches ([TopicB, TopicA].set 0 TopicC) =
      (newTopicMatcher [[], [TopicA]]).Matches [TopicB, TopicA] :=
  (wildcard_condition (newTopicMatcher [[], [TopicA]]) [TopicB, TopicA] 0 TopicC
    (by decide)).1

/-- Claim C5: the spec's sample matcher `[{A1,A2,A3},{B},{},{D1,D2}]` accepts
`[A1,B,X,D1]` for any `X`, rejects `[A1,B,X,D3]` when `D3` is outside
`{D1,D2}`, rejects the 3-topic list `[A1,B,X]`, and a single-condition
matcher `[{A,B}]` rejects `[C]` whenever `C` is neither `A` nor `B`. -/
theorem sample_matcher_cases (A1 A2 A3 TB D1 D2 D3 X A B C : Topic)
    (hD31 : D3 ≠ D1) (hD32 : D3 ≠ D2) (hCA : C ≠ A) (hCB : C ≠ B) :
    (newTopicMatcher [[A1, A2, A3], [TB], [], [D1, D2]]).Matches [A1, TB, X, D1] = true ∧
    (newTopicMatcher [[A1, A2, A3], [TB], [], [D1, D2]]).Matches [A1, TB, X, D3] = false ∧
    (newTopicMatcher [[A1, A2, A3], [TB], [], [D1, D2]]).Matches [A1, TB, X] = false ∧
    (newTopicMatcher [[A, B]]).Matches [C] = false := by
  refine ⟨?_, ?_, ?_, ?_⟩
  · rw [matches_iff, conditions_length]
    refine ⟨by simp, ?_⟩
    intro i hi
    simp only [List.length_cons, List.length_nil] at hi
    interval_cases i
    · right
      rw [conditions_getD]
      simp only [List.getD_cons_zero, List.getD_cons_succ]
      rw [mem_listSet]
      simp
    · right
      rw [conditions_getD]
      simp only [List.getD_cons_zero, List.getD_cons_succ]
      rw [mem_listSet]
      simp
    · left
      rw [conditions_getD]
      rfl
    · right
      rw [conditions_getD]
      simp only [List.getD_cons_zero, List.getD_cons_succ]
      rw [mem_listSet]
      simp
  · rw [Bool.eq_false_iff]
    intro htrue
    have h2 := ((matches_iff _ _).mp htrue).2
    rw [conditions_length] at h2
    have h3 := h2 3 (by simp)
    rw [conditions_getD] at h3
    simp only [List.getD_cons_zero, List.getD_cons_succ] at h3
    rcases h3 with hempty | hmem
    · have hnil := (listSet_eq_empty _).mp hempty
      simp at hnil
    · rw [mem_listSet] at hmem
      simp at hmem
      rcases hmem with h | h
      · exact hD31 h
      · exact hD32 h
  · rw [Bool.eq_false_iff]
    intro htrue
    have h1 := ((matches_iff _ _).mp htrue).1
    rw [conditions_length] at h1
    simp at h1
  · rw [Bool.eq_false_iff]
    intro htrue
    have h2 := ((matches_iff _ _).mp htrue).2
    rw [conditions_length] at h2
    have h0 := h2 0 (by simp)
    rw [conditions_getD] at h0
    simp only [List.getD_cons_zero] at h0
    rcases h0 with hempty | hmem
    · have hnil := (listSet_eq_empty _).mp hempty
      simp at hnil
    · rw [mem_listSet] at hmem
      simp at hmem
      rcases hmem with h | h
      · exact hCA h
      · exact hCB h

/-- Claim C5 instance: the accepting sample case at concrete topics. -/
theorem sample_matcher_cases_witness :
    (newTopicMatcher [[TopicA, TopicA, TopicA], [TopicB], [], [TopicA, TopicB]]).Matches
      [TopicA, TopicB, TopicC, TopicA] = true :=
  (sample_matcher_cases TopicA TopicA TopicA TopicB TopicA TopicB TopicC TopicC
    TopicA TopicB TopicC (by decide) (by decide) (by decide) (by decide)).1

theorem take_four_of_length (l : List Nat) (h : 4 ≤ l.length) :
    l.take 4 = [l.getD 0 0, l.getD 1 0, l.getD 2 0, l.getD 3 0] := by
  cases l with
  | nil => exact absurd h (by simp)
  | cons a l1 =>
    cases l1 with
    | nil => exact absurd h (by simp)
    | cons b l2 =>
      cases l2 with
      | nil => exact absurd h (by simp)
      | cons c l3 =>
        cases l3 with
        | nil => exact absurd h (by simp)
        | cons e rest => rfl

/-- Claim C6: `NewTopic` is total and deterministic; when the external hash
returns a 256-bit (32-byte) digest, the topic is exactly the first 4 bytes
of that digest. -/
theorem newTopic_take_four (hash : List Nat → List Nat) (data : List Nat)
    (hdigest : (hash data).length = 32) :
    topicBytes (NewTopic hash data) = (hash data).take 4 ∧
      ∀ data2 : List Nat, data2 = data → NewTopic hash data2 = NewTopic hash data := by
  constructor
  · rw [take_four_of_length _ (by omega)]
    rfl
  · intro data2 h2
    rw [h2]

/-- Claim C6 instance: the topic of a concrete 32-byte digest is its first
4 bytes. -/
theorem newTopic_take_four_witness :
    topicBytes (NewTopic (fun _ => List.range 32) []) =
      ((fun _ : List Nat => List.range 32) []).take 4 :=
  (newTopic_take_four (fun _ => List.range 32) [] (by simp)).1

/-- Claim C7: `NewTopics` is the element-wise application of `NewTopic`: one
output topic per input item, in order, for every input list. -/
theorem newTopics_elementwise (hash : List Nat → List Nat) (data : List (List Nat)) :
    NewTopics hash data = data.map (NewTopic hash) ∧
      (NewTopics hash data).length = data.length ∧
      ∀ i < data.length,
        (NewTopics hash data).getD i default = NewTopic hash (data.getD i []) := by
  refine ⟨rfl, by simp [NewTopics], ?_⟩
  intro i hi
  rw [List.getD_eq_getElem?_getD, List.getD_eq_getElem?_getD]
  simp only [NewTopics, List.getElem?_map, List.getElem?_eq_getElem hi]
  simp

/-- Claim C7 instance: the first output topic of a two-element input is the
topic of the first input. -/
theorem newTopics_elementwise_witness :
    (NewTopics (fun _ => List.range 32) [[1], [2]]).getD 0 default =
      NewTopic (fun _ => List.range 32) ([[1], [2]].getD 0 []) :=
  (newTopics_elementwise (fun _ => List.range 32) [[1], [2]]).2.2 0 (by simp)

/-- Claim C8: `Topic.String` renders exactly the raw 4 bytes of the topic,
with no transformation, so its length is always 4. -/
theorem topic_string_raw_bytes (t : Topic) :
    Topic.String t = topicBytes t ∧ (Topic.String t).length = 4 :=
  ⟨rfl, rfl⟩

/-- Claim C9: matching is order-sensitive: for a concrete matcher and
candidate, swapping two candidate positions changes the result; and the
result cannot change when each of the two conditions accepts both involved
values — in particular when both conditions are wildcards, whose `condOK`
accepts everything. -/
theorem matches_order_sensitive :
    ((newTopicMatcher [[TopicA], [TopicB]]).Matches [TopicA, TopicB] = true ∧
     (newTopicMatcher [[TopicA], [TopicB]]).Matches (swapAt [TopicA, TopicB] 0 1) = false) ∧
    ∀ (m : topicMatcher) (ts : List Topic) (i j : Nat),
      condOK (m.conditions.getD i ∅) (ts.getD i default) = true →
      condOK (m.conditions.getD i ∅) (ts.getD j default) = true →
      condOK (m.conditions.getD j ∅) (ts.getD i default) = true →
      condOK (m.conditions.getD j ∅) (ts.getD j default) = true →
      m.Matches (swapAt ts i j) = m.Matches ts := by
  constructor
  · exact ⟨by decide, by decide⟩
  · intro m ts i j hii hij hji hjj
    have hlen : (swapAt ts i j).length = ts.length := by
      simp [swapAt]
    have hval : ∀ k, k ≠ i → k ≠ j →
        (swapAt ts i j).getD k default = ts.getD k default := by
      intro k hki hkj
      unfold swapAt
      rw [getD_set_ne _ _ _ _ _ (fun h => hkj h.symm),
          getD_set_ne _ _ _ _ _ (fun h => hki h.symm)]
    have swap_j : condOK (m.conditions.getD j ∅) ((swapAt ts i j).getD j default) = true := by
      unfold swapAt
      rw [getD_set_self, List.length_set]
      by_cases hl : j < ts.length
      · rw [if_pos hl]
        exact hji
      · rw [if_neg hl]
        rw [getD_out ts j default (le_of_not_lt hl)] at hjj
        exact hjj
    have swap_i : condOK (m.conditions.getD i ∅) ((swapAt ts i j).getD i default) = true := by
      by_cases hji' : j = i
      · subst hji'
        unfold swapAt
        rw [getD_set_self, List.length_set]
        by_cases hl : j < ts.length
        · rw [if_pos hl]
          exact hjj
        · rw [if_neg hl]
          rw [getD_out ts j default (le_of_not_lt hl)] at hjj
          exact hjj
      · unfold swapAt
        rw [getD_set_ne _ _ _ _ _ hji', getD_set_self]
        by_cases hl : i < ts.length
        · rw [if_pos hl]
          exact hij
        · rw [if_neg hl]
          rw [getD_out ts i default (le_of_not_lt hl)] at hii
          exact hii
    rw [Bool.eq_iff_iff, matches_iff_condOK, matches_iff_condOK, hlen]
    constructor
    · rintro ⟨h1, h2⟩
      refine ⟨h1, fun k hk => ?_⟩
      by_cases hki : k = i
      · subst hki
        exact hii
      · by_cases hkj : k = j
        · subst hkj
          exact hjj
        · rw [← hval k hki hkj]
          exact h2 k hk
    · rintro ⟨h1, h2⟩
      refine ⟨h1, fun k hk => ?_⟩
      by_cases hki : k = i
      · subst hki
        exact swap_i
      · by_cases hkj : k = j
        · subst hkj
          exact swap_j
        · rw [hval k hki hkj]
          exact h2 k hk

/-- Claim C9 instance: swapping two positions that both conditions accept
leaves a concrete result unchanged. -/
theorem matches_order_sensitive_witness :
    (newTopicMatcher [[TopicA], [TopicA]]).Matches (swapAt [TopicA, TopicA] 0 1) =
      (newTopicMatcher [[TopicA], [TopicA]]).Matches [TopicA, TopicA] :=
  matches_order_sensitive.2 (newTopicMatcher [[TopicA], [TopicA]]) [TopicA, TopicA] 0 1
    (by decide) (by decide) (by decide) (by decide)

/-- Claim C10: the result of `Matches` depends only on the set of topics in
each condition passed to `newTopicMatcher`, not on their order or
multiplicity; compilation produces one condition per input set, and a topic
is accepted at position `i` exactly when it occurs in input list `i`. -/
theorem matches_depends_on_sets (css css2 : List (List Topic))
    (hlen : css.length = css2.length)
    (hmem : ∀ i t, t ∈ css.getD i [] ↔ t ∈ css2.getD i []) :
    (∀ ts, (newTopicMatcher css).Matches ts = (newTopicMatcher css2).Matches ts) ∧
      (newTopicMatcher css).conditions.length = css.length ∧
      ∀ i t, t ∈ (newTopicMatcher css).conditions.getD i ∅ ↔ t ∈ css.getD i [] := by
  have hsets : ∀ i, (newTopicMatcher css).conditions.getD i ∅ =
      (newTopicMatcher css2).conditions.getD i ∅ := by
    intro i
    rw [conditions_getD, conditions_getD]
    apply Finset.ext
    intro t
    rw [mem_listSet, mem_listSet]
    exact hmem i t
  refine ⟨?_, conditions_length css, ?_⟩
  · intro ts
    rw [Bool.eq_iff_iff, matches_iff, matches_iff, conditions_length, conditions_length,
      ← hlen]
    constructor
    · rintro ⟨h1, h2⟩
      refine ⟨h1, fun i hi => ?_⟩
      rw [← hsets i]
      exact h2 i hi
    · rintro ⟨h1, h2⟩
      refine ⟨h1, fun i hi => ?_⟩
      rw [hsets i]
      exact h2 i hi
  · intro i t
    rw [conditions_getD, mem_listSet]

/-- Claim C10 instance: a duplicated, reordered condition list compiles to a
matcher that agrees with the original on a concrete candidate. -/
theorem matches_depends_on_sets_witness :
    (newTopicMatcher [[TopicA, TopicA, TopicB]]).Matches [TopicA] =
      (newTopicMatcher [[TopicB, TopicA]]).Matches [TopicA] :=
  (matches_depends_on_sets [[TopicA, TopicA, TopicB]] [[TopicB, TopicA]] rfl
    (by
      intro i t
      cases i with
      | zero =>
          simp only [List.getD_cons_zero, List.mem_cons, List.not_mem_nil, or_false]
          tauto
      | succ n =>
          simp only [List.getD_cons_succ])).1 [TopicA]
